import Mathlib

/-!
Verification of the VOD-Tool transaction classifier (`src/app.py`).

The development shallowly embeds the pure core of `app.py`:

* `analyze_transactions` (app.py lines 149-258): classify an ordered list of
  extracted deposit transactions, producing a `needs_review` flag and an
  annotated list (status, label, show_enrollment_option).
* the label-overlay step of `generate_with_labels` (app.py lines 539-543);
* the visible-transaction filter of `generate_vod_pdf` (app.py line 339).

Modelling conventions:
* Python floats holding currency amounts are modelled as `ℚ` (the program
  only performs exact comparisons, `<= 300`, and `int()` truncation on them).
* `datetime` values are modelled by `PyDate` (year, month, day); only the
  calendar fields are relevant to the classifier (grouping by `'%Y-%m'`,
  within-month chronological sorting, and `relativedelta` month stepping).
* Python's in-place mutation loop over month groups is modelled by emitting,
  per group, the list of field `Assignment`s the source performs, and then
  folding them over the initialised list.  Each index is assigned at most
  once (proved below as `allAssignments_idx_nodup`), so writing the constant
  initial values (`label := none`, `show_enrollment_option := false`) in
  branches where the source leaves those fields untouched is faithful.
  The source sets `needs_review = True` exactly at the assignments whose
  status is `auto_labeled` or `needs_input`, so the final flag is
  `assigns.any (escalates ·.status)`.
-/

namespace VOD

/-- Python `int(q)`: truncation toward zero. -/
def pyInt (q : ℚ) : ℤ := if 0 ≤ q then ⌊q⌋ else ⌈q⌉

/-- A parsed `datetime` value, restricted to its calendar fields. -/
structure PyDate where
  year : ℤ
  month : ℕ
  day : ℕ
deriving DecidableEq

/-- Lexicographic comparison of dates, as Python compares `datetime`s. -/
def PyDate.Le (a b : PyDate) : Prop :=
  a.year < b.year ∨ (a.year = b.year ∧
    (a.month < b.month ∨ (a.month = b.month ∧ a.day ≤ b.day)))

instance : DecidableRel PyDate.Le := fun a b => by
  unfold PyDate.Le; infer_instance

/-- One extracted deposit row, as produced by `parse_rfms_excel`
(app.py lines 138-144): display date, parsed date (absent when the cell was
not a native datetime), description, formatted credits, numeric credits. -/
structure RawTransaction where
  Date : String
  date_obj : Option PyDate
  Description : String
  Credits : String
  credits_float : ℚ
deriving DecidableEq

/-- Classification outcomes (app.py `'auto_ok' | 'auto_labeled' | 'needs_input'`). -/
inductive Status where
  | auto_ok
  | auto_labeled
  | needs_input
deriving DecidableEq

/-- An annotated transaction: the raw entry plus the three fields
`analyze_transactions` adds (app.py lines 182-187). -/
structure ClassifiedTransaction where
  raw : RawTransaction
  status : Status
  label : Option String
  show_enrollment_option : Bool
deriving DecidableEq

/-- The list of first occurrences of elements, in encounter order:
the iteration order of a Python `Counter` / `dict` built by insertion. -/
def firstOccurrences {α : Type _} [DecidableEq α] : List α → List α
  | [] => []
  | a :: l => a :: (firstOccurrences l).filter (fun b => decide (b ≠ a))

/-- `Counter(amounts).most_common(1)[0][0]` (app.py lines 166-167): the
amount with the largest multiplicity, ties broken by first encounter;
`0` when there are no amounts. -/
def usual_surplus (amounts : List ℚ) : ℚ :=
  match firstOccurrences amounts with
  | [] => 0
  | a :: rest =>
      rest.foldl (fun best x => if amounts.count best < amounts.count x then x else best) a

/-- The `'%Y-%m'` grouping key of a transaction (app.py lines 172-176);
`none` is the `'unknown'` group. -/
def month_key (t : RawTransaction) : Option (ℤ × ℕ) :=
  t.date_obj.map (fun d => (d.year, d.month))

/-- The group keys in first-appearance order, as a Python `defaultdict`
iterates them. -/
def month_keys (ts : List RawTransaction) : List (Option (ℤ × ℕ)) :=
  firstOccurrences (ts.map month_key)

/-- The indices of the transactions in group `k`, in ascending order
(app.py lines 170-176 append indices in enumeration order). -/
def month_indices (ts : List RawTransaction) (k : Option (ℤ × ℕ)) : List ℕ :=
  (List.range ts.length).filter (fun i => decide ((ts.get? i).map month_key = some k))

/-- `transactions[i]['credits_float']` (out-of-range reads default to `0`;
they never occur for the indices the classifier uses). -/
def amountAt (ts : List RawTransaction) (i : ℕ) : ℚ :=
  ((ts.get? i).map (fun t => t.credits_float)).getD 0

/-- `transactions[i]['date_obj'] or datetime.min` (app.py line 209):
`datetime.min` is year 1, month 1, day 1. -/
def date_key (ts : List RawTransaction) (i : ℕ) : PyDate :=
  (((ts.get? i).bind (fun t => t.date_obj))).getD ⟨1, 1, 1⟩

/-- The sort relation of app.py line 209: compare transactions by date. -/
def dateLeAt (ts : List RawTransaction) (i j : ℕ) : Prop :=
  PyDate.Le (date_key ts i) (date_key ts j)

instance (ts : List RawTransaction) : DecidableRel (dateLeAt ts) := fun i j => by
  unfold dateLeAt; infer_instance

/-- `sorted(indices, key=...)` (app.py line 209).  Python's sort is stable;
`List.insertionSort` with a total preorder is the (unique) stable sort, so
the two agree. -/
def sorted_indices (ts : List RawTransaction) (indices : List ℕ) : List ℕ :=
  List.insertionSort (dateLeAt ts) indices

/-- `'%b'` month abbreviations of `strftime`. -/
def monthAbbrev : ℕ → String
  | 1 => "Jan" | 2 => "Feb" | 3 => "Mar" | 4 => "Apr"
  | 5 => "May" | 6 => "Jun" | 7 => "Jul" | 8 => "Aug"
  | 9 => "Sep" | 10 => "Oct" | 11 => "Nov" | 12 => "Dec"
  | _ => ""

/-- `datetime(year, month, 1) - relativedelta(months=k)` (app.py lines
214, 222): step back `k` calendar months. -/
def stepBack (y : ℤ) (m : ℕ) (k : ℕ) : ℤ × ℕ :=
  let tot : ℤ := 12 * y + (m : ℤ) - 1 - (k : ℤ)
  (tot.ediv 12, (tot.emod 12).toNat + 1)

/-- The catch-up label text: `f"For: {for_date.strftime('%b %Y')}"`
(app.py lines 223, 245). -/
def forLabel (y : ℤ) (m : ℕ) (k : ℕ) : String :=
  "For: " ++ monthAbbrev (stepBack y m k).2 ++ " " ++ toString (stepBack y m k).1

/-- `amt <= 300 and amt == int(amt)` (app.py lines 195, 255). -/
def enroll_hint (amt : ℚ) : Bool :=
  decide (amt ≤ 300) && decide (amt = (pyInt amt : ℚ))

/-- One field write performed by the analysis loop: the target index and the
values the `status`, `label` and `show_enrollment_option` fields hold after
the write.  (Fields the source does not touch keep their initial values
`none` / `false`, which the assignment restates explicitly.) -/
structure Assignment where
  idx : ℕ
  status : Status
  label : Option String
  show_enrollment_option : Bool
deriving DecidableEq

/-- The `needs_input` write (app.py lines 192-196 and 252-256). -/
def needsInputAssign (ts : List RawTransaction) (idx : ℕ) : Assignment :=
  { idx := idx, status := .needs_input, label := none
    show_enrollment_option := enroll_hint (amountAt ts idx) }

/-- The backwards-labeling loop over a chronologically sorted index list
(app.py lines 218-228 and 240-249): position `pos` is `months_back =
num - 1 - pos` months back; the last position is the current month. -/
def backLabelAssignments (y : ℤ) (m : ℕ) (sorted : List ℕ) : List Assignment :=
  sorted.enum.map (fun p =>
    if 0 < sorted.length - 1 - p.1 then
      { idx := p.2, status := .auto_labeled
        label := some (forLabel y m (sorted.length - 1 - p.1))
        show_enrollment_option := false }
    else
      { idx := p.2, status := .auto_ok, label := none, show_enrollment_option := false })

/-- The writes one month group performs (the body of the loop at app.py
lines 190-256), given the whole transaction list and the usual surplus. -/
def groupAssignments (ts : List RawTransaction) (usual : ℚ) :
    Option (ℤ × ℕ) → List ℕ → List Assignment
  | none, indices =>
      -- 'unknown' group (lines 191-197)
      indices.map (needsInputAssign ts)
  | some (y, m), indices =>
      if indices.length = 1 then
        -- single deposit in a month (lines 199-201)
        indices.map (fun idx =>
          { idx := idx, status := .auto_ok, label := none, show_enrollment_option := false })
      else
        -- multiple deposits in the same month (lines 204-256)
        if (firstOccurrences (indices.map (amountAt ts))).length = 1 ∧
            (indices.map (amountAt ts)).headD 0 = usual then
          -- all identical and matching the usual surplus (lines 216-228)
          backLabelAssignments y m (sorted_indices ts indices)
        else
          -- mixed amounts (lines 229-256)
          (if ((sorted_indices ts indices).filter
                (fun i => decide (amountAt ts i = usual))).length = 1 then
            [{ idx := ((sorted_indices ts indices).filter
                  (fun i => decide (amountAt ts i = usual))).headD 0
               status := .auto_ok, label := none, show_enrollment_option := false }]
          else if 1 < ((sorted_indices ts indices).filter
                (fun i => decide (amountAt ts i = usual))).length then
            backLabelAssignments y m ((sorted_indices ts indices).filter
              (fun i => decide (amountAt ts i = usual)))
          else []) ++
          ((sorted_indices ts indices).filter
            (fun i => decide (amountAt ts i ≠ usual))).map (needsInputAssign ts)

/-- All writes of one `analyze_transactions` run, group by group in the
`defaultdict` iteration order. -/
def allAssignments (ts : List RawTransaction) : List Assignment :=
  (month_keys ts).flatMap (fun k =>
    groupAssignments ts (usual_surplus (ts.map (fun t => t.credits_float))) k
      (month_indices ts k))

/-- The initial annotated entry (app.py lines 182-187). -/
def initEntry (t : RawTransaction) : ClassifiedTransaction :=
  { raw := t, status := .auto_ok, label := none, show_enrollment_option := false }

/-- Replace the element at index `i` (Python `analyzed[idx][...] = ...`). -/
def modifyIdx {α : Type _} (f : α → α) : ℕ → List α → List α
  | _, [] => []
  | 0, a :: l => f a :: l
  | n + 1, a :: l => a :: modifyIdx f n l

/-- Perform one field write on the annotated list. -/
def applyAssignment (an : List ClassifiedTransaction) (a : Assignment) :
    List ClassifiedTransaction :=
  modifyIdx (fun e =>
    { e with status := a.status, label := a.label
             show_enrollment_option := a.show_enrollment_option }) a.idx an

/-- The statuses at which the source sets `needs_review = True`
(app.py lines 196, 225, 247, 256). -/
def escalates : Status → Bool
  | .auto_ok => false
  | .auto_labeled => true
  | .needs_input => true

/-- `analyze_transactions` (app.py lines 149-258). -/
def analyze_transactions (ts : List RawTransaction) :
    Bool × List ClassifiedTransaction :=
  if ts.isEmpty then (false, [])
  else
    ((allAssignments ts).any (fun a => escalates a.status),
     (allAssignments ts).foldl applyAssignment (ts.map initEntry))

/-- The overlay step of `generate_with_labels` (app.py lines 539-543):
apply user-supplied labels by index, in mapping iteration order, skipping
out-of-range indices.  Keys of the Python dict are parsed as integers. -/
def applyOverlay (labels : List (ℤ × String))
    (analyzed : List ClassifiedTransaction) : List ClassifiedTransaction :=
  labels.foldl (fun an p =>
    if 0 ≤ p.1 ∧ p.1 < (an.length : ℤ) then
      modifyIdx (fun e => { e with label := some p.2 }) p.1.toNat an
    else an) analyzed

/-- The visible-transaction filter of `generate_vod_pdf` (app.py line 339):
drop entries labeled with the exclude sentinel. -/
def visible_transactions (ts : List ClassifiedTransaction) :
    List ClassifiedTransaction :=
  ts.filter (fun t => decide (t.label ≠ some "ENROLLMENT_FEE"))

/-- The usual amount of a transaction list (app.py lines 165-167). -/
def usual_amount (ts : List RawTransaction) : ℚ :=
  usual_surplus (ts.map (fun t => t.credits_float))

/-! ### Concrete example inputs used in the witness theorems -/

/-- The transaction of the C1 counterexample: an unparseable date and a
negative whole amount. -/
def negFeeTx : RawTransaction :=
  { Date := "", date_obj := none, Description := "AUTO PMT", Credits := ""
    credits_float := -50 }

/-- The concrete transaction of the C1 witness: dateless, amount 75. -/
def hintTx : RawTransaction :=
  { Date := "", date_obj := none, Description := "AUTO PMT", Credits := ""
    credits_float := 75 }

/-- The annotated entry the classifier produces for `hintTx`. -/
def hintEntry : ClassifiedTransaction :=
  { raw := hintTx, status := .needs_input, label := none
    show_enrollment_option := true }

/-- The concrete transactions of the C6 witness: two distinct months. -/
def exC6tx1 : RawTransaction :=
  { Date := "01/05/2024", date_obj := some ⟨2024, 1, 5⟩
    Description := "AUTO PMT", Credits := "$500.00", credits_float := 500 }

def exC6tx2 : RawTransaction :=
  { Date := "02/07/2024", date_obj := some ⟨2024, 2, 7⟩
    Description := "SURPLUS", Credits := "$310.00", credits_float := 310 }

def exC6 : List RawTransaction := [exC6tx1, exC6tx2]

/-- The concrete transactions of the C3 witness: the spec scenario
`[(Jan 5, $500), (Jan 20, $500)]`. -/
def exC3tx1 : RawTransaction :=
  { Date := "01/05/2024", date_obj := some ⟨2024, 1, 5⟩
    Description := "AUTO PMT", Credits := "$500.00", credits_float := 500 }

def exC3tx2 : RawTransaction :=
  { Date := "01/20/2024", date_obj := some ⟨2024, 1, 20⟩
    Description := "AUTO PMT", Credits := "$500.00", credits_float := 500 }

def exC3 : List RawTransaction := [exC3tx1, exC3tx2]

/-- The concrete transactions of the C4 witness: the spec scenario
`[(Jan 5, $500), (Jan 20, $75)]`, usual amount $500. -/
def exC4tx1 : RawTransaction :=
  { Date := "01/05/2024", date_obj := some ⟨2024, 1, 5⟩
    Description := "AUTO PMT", Credits := "$500.00", credits_float := 500 }

def exC4tx2 : RawTransaction :=
  { Date := "01/20/2024", date_obj := some ⟨2024, 1, 20⟩
    Description := "AUTO PMT", Credits := "$75.00", credits_float := 75 }

def exC4 : List RawTransaction := [exC4tx1, exC4tx2]

/-- The concrete classified list of the C9 witness. -/
def exC9an : List ClassifiedTransaction :=
  [{ raw := { Date := "01/05/2024", date_obj := some ⟨2024, 1, 5⟩
              Description := "AUTO PMT", Credits := "$75.00", credits_float := 75 }
     status := .needs_input, label := none, show_enrollment_option := true },
   { raw := { Date := "02/05/2024", date_obj := some ⟨2024, 2, 5⟩
              Description := "AUTO PMT", Credits := "$500.00", credits_float := 500 }
     status := .auto_ok, label := none, show_enrollment_option := false }]

/-- The concrete classified list of the C10 witness. -/
def exC10an : List ClassifiedTransaction :=
  [{ raw := { Date := "01/05/2024", date_obj := some ⟨2024, 1, 5⟩
              Description := "AUTO PMT", Credits := "$500.00", credits_float := 500 }
     status := .auto_labeled, label := some "For: Dec 2023"
     show_enrollment_option := false },
   { raw := { Date := "01/20/2024", date_obj := some ⟨2024, 1, 20⟩
              Description := "AUTO PMT", Credits := "$500.00", credits_float := 500 }
     status := .auto_ok, label := none, show_enrollment_option := false }]

/-- The concrete transaction of the C7 witness: unparseable date, amount
equal to the usual amount. -/
def exC7tx : RawTransaction :=
  { Date := "pending", date_obj := none, Description := "SURPLUS"
    Credits := "$500.00", credits_float := 500 }

/-! ### Basic lemmas about `modifyIdx` -/

theorem length_modifyIdx {α : Type _} (f : α → α) (n : ℕ) (l : List α) :
    (modifyIdx f n l).length = l.length := by
  induction l generalizing n with
  | nil => cases n <;> rfl
  | cons a l ih =>
    cases n with
    | zero => rfl
    | succ n => simp [modifyIdx, ih]

theorem get?_modifyIdx_self {α : Type _} (f : α → α) (n : ℕ) (l : List α) :
    (modifyIdx f n l).get? n = (l.get? n).map f := by
  induction l generalizing n with
  | nil => cases n <;> rfl
  | cons a l ih =>
    cases n with
    | zero => rfl
    | succ n => simpa [modifyIdx] using ih n

theorem get?_modifyIdx_ne {α : Type _} (f : α → α) {m n : ℕ} (h : m ≠ n) (l : List α) :
    (modifyIdx f m l).get? n = l.get? n := by
  induction l generalizing m n with
  | nil => cases m <;> rfl
  | cons a l ih =>
    cases m with
    | zero =>
      cases n with
      | zero => exact absurd rfl h
      | succ n => rfl
    | succ m =>
      cases n with
      | zero => rfl
      | succ n => simpa [modifyIdx] using ih (fun hmn => h (by omega))

theorem filter_modifyIdx {α : Type _} (p : α → Bool) (f : α → α)
    (hpf : ∀ x, p (f x) = false) (n : ℕ) (l : List α) :
    (modifyIdx f n l).filter p = (l.eraseIdx n).filter p := by
  induction l generalizing n with
  | nil => cases n <;> rfl
  | cons a l ih =>
    cases n with
    | zero => simp [modifyIdx, List.filter_cons, hpf]
    | succ n =>
      simp only [modifyIdx, List.eraseIdx, List.filter_cons]
      rw [ih]

/-! ### Lemmas about `firstOccurrences` -/

theorem mem_firstOccurrences {α : Type _} [DecidableEq α] {l : List α} {a : α} :
    a ∈ firstOccurrences l ↔ a ∈ l := by
  induction l with
  | nil => simp [firstOccurrences]
  | cons b l ih =>
    by_cases hab : a = b
    · subst hab; simp [firstOccurrences]
    · simp [firstOccurrences, List.mem_filter, ih, hab]

theorem nodup_firstOccurrences {α : Type _} [DecidableEq α] (l : List α) :
    (firstOccurrences l).Nodup := by
  induction l with
  | nil => simp [firstOccurrences]
  | cons b l ih =>
    simp only [firstOccurrences, List.nodup_cons]
    refine ⟨fun hmem => ?_, List.Nodup.filter _ ih⟩
    have := (List.mem_filter.1 hmem).2
    simp at this

theorem firstOccurrences_all_eq {α : Type _} [DecidableEq α] {l : List α} {c : α}
    (h : ∀ x ∈ l, x = c) (hne : l ≠ []) : firstOccurrences l = [c] := by
  cases l with
  | nil => exact absurd rfl hne
  | cons a t =>
    have ha : a = c := h a (by simp)
    subst ha
    simp only [firstOccurrences, List.cons.injEq, true_and]
    rw [List.filter_eq_nil_iff]
    intro x hx
    have hxc : x = a := h x (List.mem_cons_of_mem _ (mem_firstOccurrences.1 hx))
    simp [hxc]

/-! ### Lemmas about `month_indices` and `month_keys` -/

theorem mem_month_indices {ts : List RawTransaction} {k : Option (ℤ × ℕ)} {i : ℕ} :
    i ∈ month_indices ts k ↔ ∃ t, ts.get? i = some t ∧ month_key t = k := by
  simp only [month_indices, List.mem_filter, List.mem_range, decide_eq_true_eq,
    Option.map_eq_some']
  constructor
  · rintro ⟨_, t, ht, hk⟩; exact ⟨t, ht, hk⟩
  · rintro ⟨t, ht, hk⟩
    exact ⟨(List.get?_eq_some.1 ht).1, t, ht, hk⟩

theorem nodup_month_indices (ts : List RawTransaction) (k : Option (ℤ × ℕ)) :
    (month_indices ts k).Nodup :=
  List.Nodup.filter _ (List.nodup_range _)

theorem mem_month_indices_lt {ts : List RawTransaction} {k : Option (ℤ × ℕ)} {i : ℕ}
    (h : i ∈ month_indices ts k) : i < ts.length :=
  List.mem_range.1 (List.mem_filter.1 h).1

theorem month_indices_disjoint {ts : List RawTransaction} {k k' : Option (ℤ × ℕ)}
    (h : k ≠ k') : List.Disjoint (month_indices ts k) (month_indices ts k') := by
  intro i hi hi'
  obtain ⟨t, ht, hk⟩ := mem_month_indices.1 hi
  obtain ⟨t', ht', hk'⟩ := mem_month_indices.1 hi'
  rw [ht] at ht'
  exact h (hk ▸ hk' ▸ congrArg month_key (Option.some.inj ht') ▸ rfl)

theorem mem_month_indices_self {ts : List RawTransaction} {i : ℕ} {t : RawTransaction}
    (h : ts.get? i = some t) : i ∈ month_indices ts (month_key t) :=
  mem_month_indices.2 ⟨t, h, rfl⟩

theorem month_key_mem_month_keys {ts : List RawTransaction} {i : ℕ} {t : RawTransaction}
    (h : ts.get? i = some t) : month_key t ∈ month_keys ts :=
  mem_firstOccurrences.2 (List.mem_map_of_mem _ (List.get?_mem h))

/-! ### The indices written by the analysis are exactly the input indices -/

theorem map_idx_backLabel (y : ℤ) (m : ℕ) (s : List ℕ) :
    (backLabelAssignments y m s).map (fun a => a.idx) = s := by
  unfold backLabelAssignments
  rw [List.map_map]
  have h : ∀ p ∈ s.enum,
      ((fun a : Assignment => a.idx) ∘ (fun p : ℕ × ℕ =>
        if 0 < s.length - 1 - p.1 then
          { idx := p.2, status := .auto_labeled
            label := some (forLabel y m (s.length - 1 - p.1))
            show_enrollment_option := false }
        else
          { idx := p.2, status := .auto_ok, label := none
            show_enrollment_option := false })) p = Prod.snd p := by
    intro p _
    simp only [Function.comp_apply]
    split <;> rfl
  rw [List.map_congr_left h, List.enum_map_snd]

/-- The `≠` filter of app.py line 232 is the boolean negation of the `=`
filter of line 231. -/
theorem filter_ne_eq_filter_not {ts : List RawTransaction} {u : ℚ} (l : List ℕ) :
    l.filter (fun i => decide (amountAt ts i ≠ u)) =
      l.filter (fun i => !decide (amountAt ts i = u)) := by
  refine List.filter_congr fun i _ => ?_
  by_cases h : amountAt ts i = u <;> simp [h]

theorem map_idx_groupAssignments_perm (ts : List RawTransaction) (u : ℚ)
    (k : Option (ℤ × ℕ)) (I : List ℕ) :
    ((groupAssignments ts u k I).map (fun a => a.idx)).Perm I := by
  have hsorted : (sorted_indices ts I).Perm I := List.perm_insertionSort _ I
  match k with
  | none =>
    simp only [groupAssignments, List.map_map]
    have : ∀ i ∈ I, ((fun a : Assignment => a.idx) ∘ needsInputAssign ts) i = id i := by
      intro i _; rfl
    rw [List.map_congr_left this, List.map_id]
  | some (y, m) =>
    simp only [groupAssignments]
    split
    · -- singleton month
      rw [List.map_map]
      have : ∀ i ∈ I, ((fun a : Assignment => a.idx) ∘ (fun idx =>
          ({ idx := idx, status := .auto_ok, label := none,
             show_enrollment_option := false } : Assignment))) i = id i := by
        intro i _; rfl
      rw [List.map_congr_left this, List.map_id]
    · split
      · -- all identical, equal to the usual surplus
        rw [map_idx_backLabel]
        exact hsorted
      · -- mixed amounts
        rw [List.map_append, List.map_map]
        have hnonmap : ∀ i ∈ (sorted_indices ts I).filter
            (fun i => decide (amountAt ts i ≠ u)),
            ((fun a : Assignment => a.idx) ∘ needsInputAssign ts) i = id i := by
          intro i _; rfl
        rw [List.map_congr_left hnonmap, List.map_id, filter_ne_eq_filter_not]
        have hperm := List.filter_append_perm
          (fun i => decide (amountAt ts i = u)) (sorted_indices ts I)
        refine List.Perm.trans ?_ (hperm.trans hsorted)
        refine List.Perm.append ?_ (List.Perm.refl _)
        split
        · -- exactly one surplus match
          next h1 =>
            obtain ⟨b, hb⟩ := List.length_eq_one.1 h1
            simp [hb]
        · split
          · -- several surplus matches
            rw [map_idx_backLabel]
          · -- no surplus match
            next h1 h2 =>
              have hz : ((sorted_indices ts I).filter
                  (fun i => decide (amountAt ts i = u))).length = 0 := by omega
              rw [List.length_eq_zero.1 hz]
              rfl

theorem allAssignments_idx_nodup (ts : List RawTransaction) :
    ((allAssignments ts).map (fun a => a.idx)).Nodup := by
  unfold allAssignments
  rw [List.map_flatMap]
  rw [List.nodup_flatMap]
  constructor
  · intro k _
    exact ((map_idx_groupAssignments_perm ts _ k _).nodup_iff).2
      (nodup_month_indices ts k)
  · refine List.Pairwise.imp ?_ (nodup_firstOccurrences _)
    intro k k' hkk'
    intro x hx hx'
    have hxm := (map_idx_groupAssignments_perm ts _ k _).mem_iff.1 hx
    have hxm' := (map_idx_groupAssignments_perm ts _ k' _).mem_iff.1 hx'
    exact month_indices_disjoint hkk' hxm hxm'

theorem mem_allAssignments {ts : List RawTransaction} {k : Option (ℤ × ℕ)}
    {a : Assignment} (hk : k ∈ month_keys ts)
    (ha : a ∈ groupAssignments ts (usual_amount ts) k (month_indices ts k)) :
    a ∈ allAssignments ts :=
  List.mem_flatMap.2 ⟨k, hk, ha⟩

theorem allAssignments_idx_lt {ts : List RawTransaction} {a : Assignment}
    (ha : a ∈ allAssignments ts) : a.idx < ts.length := by
  obtain ⟨k, hk, hg⟩ := List.mem_flatMap.1 ha
  have : a.idx ∈ (groupAssignments ts (usual_amount ts) k (month_indices ts k)).map
      (fun a => a.idx) := List.mem_map_of_mem _ hg
  exact mem_month_indices_lt ((map_idx_groupAssignments_perm ts _ k _).mem_iff.1 this)

theorem exists_assignment {ts : List RawTransaction} {i : ℕ} (h : i < ts.length) :
    ∃ a ∈ allAssignments ts, a.idx = i := by
  set t := ts.get ⟨i, h⟩ with htdef
  have ht : ts.get? i = some t := List.get?_eq_get h
  have hidx : i ∈ month_indices ts (month_key t) := mem_month_indices_self ht
  have hk : month_key t ∈ month_keys ts := month_key_mem_month_keys ht
  have : i ∈ (groupAssignments ts (usual_amount ts) (month_key t)
      (month_indices ts (month_key t))).map (fun a => a.idx) :=
    (map_idx_groupAssignments_perm ts _ _ _).mem_iff.2 hidx
  obtain ⟨a, ha, haidx⟩ := List.mem_map.1 this
  exact ⟨a, mem_allAssignments hk ha, haidx⟩

/-! ### Folding the assignments over the initialised list -/

theorem foldl_applyAssignment_length (assigns : List Assignment)
    (an : List ClassifiedTransaction) :
    (assigns.foldl applyAssignment an).length = an.length := by
  induction assigns generalizing an with
  | nil => rfl
  | cons a rest ih =>
    rw [List.foldl_cons, ih]
    exact length_modifyIdx _ _ _

theorem foldl_applyAssignment_get?_of_not_mem {assigns : List Assignment}
    {i : ℕ} (h : ∀ a ∈ assigns, a.idx ≠ i) (an : List ClassifiedTransaction) :
    (assigns.foldl applyAssignment an).get? i = an.get? i := by
  induction assigns generalizing an with
  | nil => rfl
  | cons a rest ih =>
    rw [List.foldl_cons, ih (fun b hb => h b (List.mem_cons_of_mem _ hb))]
    exact get?_modifyIdx_ne _ (h a (List.mem_cons_self _ _)) an

theorem foldl_applyAssignment_get? {assigns : List Assignment}
    (hnd : (assigns.map (fun a => a.idx)).Nodup) {a : Assignment} (ha : a ∈ assigns)
    (an : List ClassifiedTransaction) :
    (assigns.foldl applyAssignment an).get? a.idx =
      (an.get? a.idx).map (fun e =>
        { e with status := a.status, label := a.label
                 show_enrollment_option := a.show_enrollment_option }) := by
  induction assigns generalizing an with
  | nil => cases ha
  | cons b rest ih =>
    rw [List.map_cons, List.nodup_cons] at hnd
    rcases List.mem_cons.1 ha with rfl | ha'
    · rw [List.foldl_cons,
        foldl_applyAssignment_get?_of_not_mem
          (fun c hc hci => hnd.1 (by rw [← hci]; exact List.mem_map_of_mem _ hc)) _]
      exact get?_modifyIdx_self _ _ an
    · rw [List.foldl_cons, ih hnd.2 ha']
      have hne : b.idx ≠ a.idx := fun hE => hnd.1 (hE ▸ List.mem_map_of_mem _ ha')
      rw [show applyAssignment an b = modifyIdx _ b.idx an from rfl,
        get?_modifyIdx_ne _ hne]

theorem foldl_applyAssignment_raw (assigns : List Assignment)
    (an : List ClassifiedTransaction) (i : ℕ) :
    ((assigns.foldl applyAssignment an).get? i).map (fun e => e.raw) =
      (an.get? i).map (fun e => e.raw) := by
  induction assigns generalizing an with
  | nil => rfl
  | cons a rest ih =>
    rw [List.foldl_cons, ih]
    by_cases h : a.idx = i
    · subst h
      rw [show applyAssignment an a = modifyIdx _ a.idx an from rfl,
        get?_modifyIdx_self]
      cases an.get? a.idx <;> rfl
    · rw [show applyAssignment an a = modifyIdx _ a.idx an from rfl,
        get?_modifyIdx_ne _ h]

/-! ### Characterisation of `analyze_transactions` -/

theorem analyze_eq (ts : List RawTransaction) (h : ts ≠ []) :
    analyze_transactions ts =
      ((allAssignments ts).any (fun a => escalates a.status),
       (allAssignments ts).foldl applyAssignment (ts.map initEntry)) := by
  unfold analyze_transactions
  rw [if_neg (by simpa [List.isEmpty_iff] using h)]

/-- The final annotated entry at an assignment's index carries exactly the
assignment's fields on top of the raw transaction. -/
theorem analyze_get? {ts : List RawTransaction} {a : Assignment}
    (ha : a ∈ allAssignments ts) :
    (analyze_transactions ts).2.get? a.idx =
      (ts.get? a.idx).map (fun t =>
        { raw := t, status := a.status, label := a.label
          show_enrollment_option := a.show_enrollment_option }) := by
  have hlt := allAssignments_idx_lt ha
  have hne : ts ≠ [] := by intro hE; subst hE; simp at hlt
  rw [analyze_eq ts hne]
  show ((allAssignments ts).foldl applyAssignment (ts.map initEntry)).get? a.idx = _
  rw [foldl_applyAssignment_get? (allAssignments_idx_nodup ts) ha,
    List.get?_map, Option.map_map]
  cases ts.get? a.idx <;> rfl

theorem analyze_length (ts : List RawTransaction) :
    (analyze_transactions ts).2.length = ts.length := by
  by_cases h : ts = []
  · subst h; rfl
  · rw [analyze_eq ts h]
    show ((allAssignments ts).foldl applyAssignment (ts.map initEntry)).length = _
    rw [foldl_applyAssignment_length, List.length_map]

theorem analyze_raw (ts : List RawTransaction) (i : ℕ) :
    ((analyze_transactions ts).2.get? i).map (fun e => e.raw) = ts.get? i := by
  by_cases h : ts = []
  · subst h; cases i <;> rfl
  · rw [analyze_eq ts h]
    show (((allAssignments ts).foldl applyAssignment (ts.map initEntry)).get? i).map _ = _
    rw [foldl_applyAssignment_raw, List.get?_map, Option.map_map]
    cases ts.get? i <;> rfl

theorem analyze_review_of_mem {ts : List RawTransaction} {a : Assignment}
    (ha : a ∈ allAssignments ts) (hesc : escalates a.status = true) :
    (analyze_transactions ts).1 = true := by
  have hlt := allAssignments_idx_lt ha
  have hne : ts ≠ [] := by intro hE; subst hE; simp at hlt
  rw [analyze_eq ts hne]
  exact List.any_eq_true.2 ⟨a, ha, hesc⟩

theorem analyze_review_iff (ts : List RawTransaction) :
    (analyze_transactions ts).1 = true ↔
      ∃ e ∈ (analyze_transactions ts).2, escalates e.status = true := by
  by_cases h : ts = []
  · subst h
    constructor
    · intro hE; cases hE
    · rintro ⟨e, he, _⟩; cases he
  · have h1 : (analyze_transactions ts).1 =
        (allAssignments ts).any (fun a => escalates a.status) := by
      rw [analyze_eq ts h]
    constructor
    · intro htrue
      rw [h1] at htrue
      obtain ⟨a, ha, hesc⟩ := List.any_eq_true.1 htrue
      have hlt := allAssignments_idx_lt ha
      have ht : ts.get? a.idx = some (ts.get ⟨a.idx, hlt⟩) := List.get?_eq_get hlt
      have hent := analyze_get? ha
      rw [ht] at hent
      exact ⟨_, List.get?_mem hent, hesc⟩
    · rintro ⟨e, he, hesc⟩
      obtain ⟨n, hn⟩ := List.mem_iff_get?.1 he
      have hlt : n < ts.length := by
        have := (List.get?_eq_some.1 hn).1
        rwa [analyze_length ts] at this
      obtain ⟨a, ha, haidx⟩ := exists_assignment hlt
      have hent := analyze_get? ha
      rw [haidx, hn] at hent
      have ht : ts.get? n = some (ts.get ⟨n, hlt⟩) := List.get?_eq_get hlt
      rw [ht] at hent
      simp only [Option.map_some'] at hent
      have hstatus : e.status = a.status := by
        rw [Option.some.inj hent]
      rw [h1]
      exact List.any_eq_true.2 ⟨a, ha, by rw [← hstatus]; exact hesc⟩

/-! ### Shape of the per-group assignments in each branch -/

theorem groupAssignments_none (ts : List RawTransaction) (u : ℚ) (I : List ℕ) :
    groupAssignments ts u none I = I.map (needsInputAssign ts) := rfl

theorem groupAssignments_some (ts : List RawTransaction) (u : ℚ) (y : ℤ) (m : ℕ)
    (I : List ℕ) :
    groupAssignments ts u (some (y, m)) I =
      if I.length = 1 then
        I.map (fun idx =>
          { idx := idx, status := .auto_ok, label := none, show_enrollment_option := false })
      else
        if (firstOccurrences (I.map (amountAt ts))).length = 1 ∧
            (I.map (amountAt ts)).headD 0 = u then
          backLabelAssignments y m (sorted_indices ts I)
        else
          (if ((sorted_indices ts I).filter
                (fun i => decide (amountAt ts i = u))).length = 1 then
            [{ idx := ((sorted_indices ts I).filter
                  (fun i => decide (amountAt ts i = u))).headD 0
               status := .auto_ok, label := none, show_enrollment_option := false }]
          else if 1 < ((sorted_indices ts I).filter
                (fun i => decide (amountAt ts i = u))).length then
            backLabelAssignments y m ((sorted_indices ts I).filter
              (fun i => decide (amountAt ts i = u)))
          else []) ++
          ((sorted_indices ts I).filter
            (fun i => decide (amountAt ts i ≠ u))).map (needsInputAssign ts) := rfl

theorem groupAssignments_singleton (ts : List RawTransaction) (u : ℚ) (y : ℤ) (m : ℕ)
    (i : ℕ) :
    groupAssignments ts u (some (y, m)) [i] =
      [{ idx := i, status := .auto_ok, label := none, show_enrollment_option := false }] := by
  simp [groupAssignments]

theorem groupAssignments_allsame {ts : List RawTransaction} {u : ℚ} {y : ℤ} {m : ℕ}
    {I : List ℕ} (h2 : 2 ≤ I.length) (hall : ∀ i ∈ I, amountAt ts i = u) :
    groupAssignments ts u (some (y, m)) I =
      backLabelAssignments y m (sorted_indices ts I) := by
  have hne : I ≠ [] := by intro hE; subst hE; simp at h2
  have hlen1 : I.length ≠ 1 := by omega
  have hmap : ∀ x ∈ I.map (amountAt ts), x = u := by
    rintro x hx
    obtain ⟨i, hi, rfl⟩ := List.mem_map.1 hx
    exact hall i hi
  have hfo : firstOccurrences (I.map (amountAt ts)) = [u] :=
    firstOccurrences_all_eq hmap (by simpa using hne)
  have hhead : (I.map (amountAt ts)).headD 0 = u := by
    cases I with
    | nil => exact absurd rfl hne
    | cons a t => simpa using hall a (by simp)
  rw [groupAssignments_some, if_neg hlen1, if_pos ⟨by rw [hfo]; rfl, hhead⟩]

theorem groupAssignments_mixed {ts : List RawTransaction} {u : ℚ} {y : ℤ} {m : ℕ}
    {I : List ℕ} (h2 : 2 ≤ I.length) (hnall : ¬ ∀ i ∈ I, amountAt ts i = u) :
    groupAssignments ts u (some (y, m)) I =
      (if ((sorted_indices ts I).filter
            (fun i => decide (amountAt ts i = u))).length = 1 then
        [{ idx := ((sorted_indices ts I).filter
              (fun i => decide (amountAt ts i = u))).headD 0
           status := .auto_ok, label := none, show_enrollment_option := false }]
      else if 1 < ((sorted_indices ts I).filter
            (fun i => decide (amountAt ts i = u))).length then
        backLabelAssignments y m ((sorted_indices ts I).filter
          (fun i => decide (amountAt ts i = u)))
      else []) ++
      ((sorted_indices ts I).filter
        (fun i => decide (amountAt ts i ≠ u))).map (needsInputAssign ts) := by
  have hne : I ≠ [] := by intro hE; subst hE; simp at h2
  have hlen1 : I.length ≠ 1 := by omega
  have hcond : ¬((firstOccurrences (I.map (amountAt ts))).length = 1 ∧
      (I.map (amountAt ts)).headD 0 = u) := by
    rintro ⟨hfo, hhead⟩
    apply hnall
    intro i hi
    obtain ⟨c, hc⟩ := List.length_eq_one.1 hfo
    have hic : amountAt ts i = c := by
      have hmem : amountAt ts i ∈ firstOccurrences (I.map (amountAt ts)) :=
        mem_firstOccurrences.2 (List.mem_map_of_mem _ hi)
      rw [hc] at hmem
      simpa using hmem
    cases I with
    | nil => exact absurd rfl hne
    | cons a t =>
      have hac : amountAt ts a = c := by
        have hmem : amountAt ts a ∈ firstOccurrences ((a :: t).map (amountAt ts)) :=
          mem_firstOccurrences.2 (List.mem_map_of_mem _ (by simp))
        rw [hc] at hmem
        simpa using hmem
      have hau : amountAt ts a = u := by simpa using hhead
      rw [hic, ← hac, hau]
  rw [groupAssignments_some, if_neg hlen1, if_neg hcond]

/-! ### Properties of the backwards-labeling assignment list -/

theorem backLabel_get? (y : ℤ) (m : ℕ) (s : List ℕ) {p : ℕ} (hp : p < s.length) :
    (backLabelAssignments y m s).get? p = some (
      if 0 < s.length - 1 - p then
        { idx := s.get ⟨p, hp⟩, status := .auto_labeled
          label := some (forLabel y m (s.length - 1 - p))
          show_enrollment_option := false }
      else
        { idx := s.get ⟨p, hp⟩, status := .auto_ok, label := none
          show_enrollment_option := false }) := by
  unfold backLabelAssignments
  rw [List.get?_map, List.get?_enum, List.get?_eq_get hp]
  rfl

theorem mem_backLabel {y : ℤ} {m : ℕ} {s : List ℕ} {a : Assignment}
    (ha : a ∈ backLabelAssignments y m s) :
    a.show_enrollment_option = false ∧ a.status ≠ Status.needs_input := by
  obtain ⟨p, _, rfl⟩ := List.mem_map.1 ha
  split <;> simp

/-- In every branch, `show_enrollment_option` is written true exactly for the
`needs_input` writes with a whole amount at most 300. -/
theorem groupAssignments_hint {ts : List RawTransaction} {u : ℚ} {k : Option (ℤ × ℕ)}
    {I : List ℕ} {a : Assignment} (ha : a ∈ groupAssignments ts u k I) :
    a.show_enrollment_option =
      (decide (a.status = Status.needs_input) && enroll_hint (amountAt ts a.idx)) := by
  match k with
  | none =>
    rw [groupAssignments_none] at ha
    obtain ⟨i, _, rfl⟩ := List.mem_map.1 ha
    simp [needsInputAssign]
  | some (y, m) =>
    rw [groupAssignments_some] at ha
    split at ha
    · obtain ⟨i, _, rfl⟩ := List.mem_map.1 ha
      simp
    · split at ha
      · obtain ⟨hfalse, hne⟩ := mem_backLabel ha
        simp [hfalse, hne]
      · rcases List.mem_append.1 ha with hl | hr
        · split at hl
          · rw [List.mem_singleton] at hl
            subst hl
            simp
          · split at hl
            · obtain ⟨hfalse, hne⟩ := mem_backLabel hl
              simp [hfalse, hne]
            · cases hl
        · obtain ⟨i, _, rfl⟩ := List.mem_map.1 hr
          simp [needsInputAssign]

theorem needsInput_mem_allAssignments {ts : List RawTransaction} {i : ℕ}
    {t : RawTransaction} (ht : ts.get? i = some t) (hd : t.date_obj = none) :
    needsInputAssign ts i ∈ allAssignments ts := by
  have hk : month_key t = none := by simp [month_key, hd]
  refine mem_allAssignments (k := none) ?_ ?_
  · rw [← hk]
    exact month_key_mem_month_keys ht
  · rw [groupAssignments_none]
    refine List.mem_map_of_mem _ ?_
    have hmem := mem_month_indices_self ht
    rwa [hk] at hmem

/-! ### The claims -/

/-- C8: `classify` is total on well-typed input (the Lean embedding is a
total function by construction) and returns `needs_review = false` with an
empty annotated list on the empty input (app.py lines 161-162). -/
theorem analyze_empty : analyze_transactions [] = (false, []) := rfl

/-- C5: the annotated list returned by `classify` has exactly the input's
length, and the entry at each position carries exactly the input transaction
at that position — order preserved, nothing added, dropped or moved. -/
theorem analyze_preserves_order (ts : List RawTransaction) :
    (analyze_transactions ts).2.length = ts.length ∧
    ∀ i : ℕ, ((analyze_transactions ts).2.get? i).map (fun e => e.raw) = ts.get? i :=
  ⟨analyze_length ts, fun i => analyze_raw ts i⟩

/-- C2: `needs_review` is true iff at least one annotated transaction has
status `auto_labeled` or `needs_input`. -/
theorem analyze_needs_review_iff (ts : List RawTransaction) :
    (analyze_transactions ts).1 = true ↔
      ∃ e ∈ (analyze_transactions ts).2,
        e.status = Status.auto_labeled ∨ e.status = Status.needs_input := by
  rw [analyze_review_iff]
  constructor
  · rintro ⟨e, he, hesc⟩
    refine ⟨e, he, ?_⟩
    cases hS : e.status with
    | auto_ok => rw [hS] at hesc; simp [escalates] at hesc
    | auto_labeled => exact Or.inl rfl
    | needs_input => exact Or.inr rfl
  · rintro ⟨e, he, hS | hS⟩ <;> exact ⟨e, he, by rw [hS]; rfl⟩

/-- C7: a transaction without a parseable date is always `needs_input`,
regardless of its amount, and its presence forces `needs_review = true`. -/
theorem analyze_unknown_date_needs_input {ts : List RawTransaction} {i : ℕ}
    {t : RawTransaction} (ht : ts.get? i = some t) (hd : t.date_obj = none) :
    (analyze_transactions ts).2.get? i =
      some { raw := t, status := Status.needs_input, label := none
             show_enrollment_option := enroll_hint t.credits_float } ∧
    (analyze_transactions ts).1 = true := by
  have hmem := needsInput_mem_allAssignments ht hd
  have hget := analyze_get? hmem
  constructor
  · rw [show (needsInputAssign ts i).idx = i from rfl] at hget
    rw [hget, ht, Option.map_some']
    have hamt : amountAt ts i = t.credits_float := by
      unfold amountAt
      rw [ht]
      rfl
    simp [needsInputAssign, hamt]
  · exact analyze_review_of_mem hmem rfl

/-- C1 (amended): `show_enrollment_option` is true iff the transaction's
status is `needs_input` and its amount is a whole number at most 300; the
code does not require the amount to be non-negative, so negative whole
amounts also receive the hint. -/
theorem analyze_review_hint_iff {ts : List RawTransaction}
    {e : ClassifiedTransaction} (he : e ∈ (analyze_transactions ts).2) :
    e.show_enrollment_option = true ↔
      (e.status = Status.needs_input ∧ e.raw.credits_float ≤ 300 ∧
        e.raw.credits_float = (pyInt e.raw.credits_float : ℚ)) := by
  obtain ⟨n, hn⟩ := List.mem_iff_get?.1 he
  have hlt : n < ts.length := by
    have := (List.get?_eq_some.1 hn).1
    rwa [analyze_length ts] at this
  obtain ⟨a, ha, haidx⟩ := exists_assignment hlt
  obtain ⟨k, hk, hg⟩ := List.mem_flatMap.1 ha
  have hhint := groupAssignments_hint hg
  have hget := analyze_get? ha
  rw [haidx, hn] at hget
  have ht : ts.get? n = some (ts.get ⟨n, hlt⟩) := List.get?_eq_get hlt
  rw [ht, Option.map_some'] at hget
  have he' := Option.some.inj hget
  subst he'
  rw [haidx] at hhint
  have hamt : amountAt ts n = (ts.get ⟨n, hlt⟩).credits_float := by
    unfold amountAt
    rw [ht]
    rfl
  rw [hamt] at hhint
  show a.show_enrollment_option = true ↔
    (a.status = Status.needs_input ∧ _ ∧ _)
  rw [hhint]
  simp [enroll_hint, Bool.and_eq_true, decide_eq_true_eq, and_assoc]

/-- C1 counterexample: the claim says `review_hint` must be false for a
`needs_input` transaction with a negative amount, but the code sets it to
true for a `needs_input` transaction of amount −50 (a whole number ≤ 300). -/
theorem analyze_review_hint_negative_counterexample :
    (analyze_transactions [negFeeTx]).2.map
        (fun e => (e.status, e.show_enrollment_option)) =
      [(Status.needs_input, true)] ∧ negFeeTx.credits_float < 0 := by
  constructor
  · decide
  · show (-50 : ℚ) < 0
    norm_num

/-- Witness for C1 at a concrete input: a dateless transaction of amount 75. -/
theorem analyze_review_hint_iff_witness :
    hintEntry ∈ (analyze_transactions [hintTx]).2 ∧
    (hintEntry.show_enrollment_option = true ↔
      (hintEntry.status = Status.needs_input ∧ hintEntry.raw.credits_float ≤ 300 ∧
        hintEntry.raw.credits_float = (pyInt hintEntry.raw.credits_float : ℚ))) :=
  ⟨by decide, @analyze_review_hint_iff [hintTx] hintEntry (by decide)⟩

/-- An annotated entry's status always comes from the unique assignment at
its index. -/
theorem exists_assignment_of_mem {ts : List RawTransaction}
    {e : ClassifiedTransaction} (he : e ∈ (analyze_transactions ts).2) :
    ∃ a ∈ allAssignments ts, e.status = a.status := by
  obtain ⟨n, hn⟩ := List.mem_iff_get?.1 he
  have hlt : n < ts.length := by
    have := (List.get?_eq_some.1 hn).1
    rwa [analyze_length ts] at this
  obtain ⟨a, ha, haidx⟩ := exists_assignment hlt
  have hget := analyze_get? ha
  rw [haidx, hn, List.get?_eq_get hlt, Option.map_some'] at hget
  exact ⟨a, ha, by rw [Option.some.inj hget]⟩

theorem groupAssignments_nil (ts : List RawTransaction) (u : ℚ) (y : ℤ) (m : ℕ) :
    groupAssignments ts u (some (y, m)) [] = [] := rfl

/-- C6: a transaction that is the sole member of its month group is
`auto_ok` with no label regardless of amount; and when every transaction
has a parseable date and the months are pairwise distinct, everything is
`auto_ok` and `needs_review` is false. -/
theorem analyze_singleton_months :
    (∀ (ts : List RawTransaction) (y : ℤ) (m : ℕ) (i : ℕ) (t : RawTransaction),
        month_indices ts (some (y, m)) = [i] → ts.get? i = some t →
        (analyze_transactions ts).2.get? i =
          some { raw := t, status := Status.auto_ok, label := none
                 show_enrollment_option := false }) ∧
    (∀ ts : List RawTransaction,
        (∀ t ∈ ts, t.date_obj ≠ none) →
        (∀ j, j < ts.length → ∀ j', j' < ts.length → j ≠ j' →
          (ts.get? j).map month_key ≠ (ts.get? j').map month_key) →
        (∀ e ∈ (analyze_transactions ts).2, e.status = Status.auto_ok) ∧
          (analyze_transactions ts).1 = false) := by
  constructor
  · intro ts y m i t hI ht
    have hi : i ∈ month_indices ts (some (y, m)) := by rw [hI]; simp
    obtain ⟨t0, ht0, hk0⟩ := mem_month_indices.1 hi
    have htt : t0 = t := by
      rw [ht] at ht0
      exact (Option.some.inj ht0).symm
    subst htt
    have hkmem : some (y, m) ∈ month_keys ts := by
      rw [← hk0]; exact month_key_mem_month_keys ht0
    have hamem : (⟨i, .auto_ok, none, false⟩ : Assignment) ∈ allAssignments ts := by
      refine mem_allAssignments hkmem ?_
      rw [hI, groupAssignments_singleton]
      simp
    have hget := analyze_get? hamem
    rw [show (⟨i, .auto_ok, none, false⟩ : Assignment).idx = i from rfl, ht,
      Option.map_some'] at hget
    exact hget
  · intro ts hdates hdistinct
    have hok : ∀ a ∈ allAssignments ts, a.status = Status.auto_ok := by
      intro a ha
      obtain ⟨k, hk, hg⟩ := List.mem_flatMap.1 ha
      match k with
      | none =>
        rw [groupAssignments_none] at hg
        obtain ⟨i, hi, rfl⟩ := List.mem_map.1 hg
        obtain ⟨t, ht, hkey⟩ := mem_month_indices.1 hi
        have hdnone : t.date_obj = none := by
          simpa [month_key] using hkey
        exact absurd hdnone (hdates t (List.get?_mem ht))
      | some (y, m) =>
        cases hI : month_indices ts (some (y, m)) with
        | nil =>
          rw [hI, groupAssignments_nil] at hg
          cases hg
        | cons i rest =>
          cases rest with
          | nil =>
            rw [hI, groupAssignments_singleton] at hg
            rw [List.mem_singleton] at hg
            subst hg
            rfl
          | cons j rest2 =>
            exfalso
            have hnd := nodup_month_indices ts (some (y, m))
            rw [hI, List.nodup_cons] at hnd
            have hij : i ≠ j := fun hE => hnd.1 (hE ▸ by simp)
            have hi : i ∈ month_indices ts (some (y, m)) := by rw [hI]; simp
            have hj : j ∈ month_indices ts (some (y, m)) := by rw [hI]; simp
            obtain ⟨ti, hti, hki⟩ := mem_month_indices.1 hi
            obtain ⟨tj, htj, hkj⟩ := mem_month_indices.1 hj
            refine hdistinct i (mem_month_indices_lt hi) j (mem_month_indices_lt hj)
              hij ?_
            rw [hti, htj, Option.map_some', Option.map_some', hki, hkj]
    constructor
    · intro e he
      obtain ⟨a, ha, hstat⟩ := exists_assignment_of_mem he
      rw [hstat]
      exact hok a ha
    · by_cases hts : ts = []
      · subst hts; rfl
      · rw [analyze_eq ts hts]
        show ((allAssignments ts).any fun a => escalates a.status) = false
        rw [List.any_eq_false]
        intro a ha
        rw [hok a ha]
        simp [escalates]

/-- Witness for C6: two transactions in distinct months, different amounts. -/
theorem analyze_singleton_months_witness :
    (month_indices exC6 (some ((2024 : ℤ), 1)) = [0]) ∧
    (exC6.get? 0 = some exC6tx1) ∧
    ((analyze_transactions exC6).2.get? 0 =
      some { raw := exC6tx1, status := Status.auto_ok, label := none
             show_enrollment_option := false }) ∧
    ((∀ e ∈ (analyze_transactions exC6).2, e.status = Status.auto_ok) ∧
      (analyze_transactions exC6).1 = false) :=
  ⟨by decide, rfl,
   analyze_singleton_months.1 exC6 2024 1 0 exC6tx1 (by decide) rfl,
   analyze_singleton_months.2 exC6 (by decide)
     (by
       have hlen : exC6.length = 2 := rfl
       intro j hj j' hj' hne
       rw [hlen] at hj hj'
       interval_cases j <;> interval_cases j' <;> first | omega | decide)⟩

/-! ### C3: uniform month groups -/

instance (ts : List RawTransaction) : IsTotal ℕ (dateLeAt ts) where
  total := by
    intro i j
    unfold dateLeAt PyDate.Le
    omega

instance (ts : List RawTransaction) : IsTrans ℕ (dateLeAt ts) where
  trans := by
    intro i j k
    unfold dateLeAt PyDate.Le
    omega

/-- C3: in a month group of N ≥ 2 transactions whose amounts all equal the
usual amount, the chronologically last member is `auto_ok` with no label and
each earlier member is `auto_labeled` with a label stepping back one
calendar month per position from the group's month; `needs_review` is true.
The sorted index list is a chronologically sorted permutation of the group. -/
theorem analyze_uniform_group {ts : List RawTransaction} {y : ℤ} {m : ℕ}
    (h2 : 2 ≤ (month_indices ts (some (y, m))).length)
    (hall : ∀ i ∈ month_indices ts (some (y, m)), amountAt ts i = usual_amount ts) :
    (analyze_transactions ts).1 = true ∧
    (sorted_indices ts (month_indices ts (some (y, m)))).Perm
      (month_indices ts (some (y, m))) ∧
    (sorted_indices ts (month_indices ts (some (y, m)))).Sorted (dateLeAt ts) ∧
    ∀ (p : ℕ) (hp : p < (sorted_indices ts (month_indices ts (some (y, m)))).length),
      (analyze_transactions ts).2.get?
          ((sorted_indices ts (month_indices ts (some (y, m)))).get ⟨p, hp⟩) =
        (ts.get? ((sorted_indices ts (month_indices ts (some (y, m)))).get ⟨p, hp⟩)).map
          (fun t =>
            if p = (sorted_indices ts (month_indices ts (some (y, m)))).length - 1 then
              { raw := t, status := Status.auto_ok, label := none
                show_enrollment_option := false }
            else
              { raw := t, status := Status.auto_labeled
                label := some (forLabel y m
                  ((sorted_indices ts (month_indices ts (some (y, m)))).length - 1 - p))
                show_enrollment_option := false }) := by
  have hIne : month_indices ts (some (y, m)) ≠ [] := by
    intro hE
    rw [hE] at h2
    simp at h2
  obtain ⟨i0, hi0⟩ := List.exists_mem_of_ne_nil _ hIne
  obtain ⟨t0, ht0, hk0⟩ := mem_month_indices.1 hi0
  have hkmem : some (y, m) ∈ month_keys ts := by
    rw [← hk0]
    exact month_key_mem_month_keys ht0
  have hGA := groupAssignments_allsame (u := usual_amount ts) (y := y) (m := m) h2 hall
  have hslen : (sorted_indices ts (month_indices ts (some (y, m)))).length =
      (month_indices ts (some (y, m))).length :=
    (List.perm_insertionSort _ _).length_eq
  have hmain : ∀ (p : ℕ)
      (hp : p < (sorted_indices ts (month_indices ts (some (y, m)))).length),
      (analyze_transactions ts).2.get?
          ((sorted_indices ts (month_indices ts (some (y, m)))).get ⟨p, hp⟩) =
        (ts.get? ((sorted_indices ts (month_indices ts (some (y, m)))).get ⟨p, hp⟩)).map
          (fun t =>
            if p = (sorted_indices ts (month_indices ts (some (y, m)))).length - 1 then
              { raw := t, status := Status.auto_ok, label := none
                show_enrollment_option := false }
            else
              { raw := t, status := Status.auto_labeled
                label := some (forLabel y m
                  ((sorted_indices ts (month_indices ts (some (y, m)))).length - 1 - p))
                show_enrollment_option := false }) := by
    intro p hp
    have hbg := backLabel_get? y m (sorted_indices ts (month_indices ts (some (y, m)))) hp
    have hmem := List.get?_mem hbg
    rw [← hGA] at hmem
    have hA := analyze_get? (mem_allAssignments hkmem hmem)
    by_cases hlast : p = (sorted_indices ts (month_indices ts (some (y, m)))).length - 1
    · have hz : ¬ 0 < (sorted_indices ts (month_indices ts (some (y, m)))).length - 1 - p := by
        omega
      rw [if_neg hz] at hA
      simp only [if_pos hlast]
      exact hA
    · have hz : 0 < (sorted_indices ts (month_indices ts (some (y, m)))).length - 1 - p := by
        omega
      rw [if_pos hz] at hA
      simp only [if_neg hlast]
      exact hA
  refine ⟨?_, List.perm_insertionSort _ _, List.sorted_insertionSort _ _, hmain⟩
  have h0 : 0 < (sorted_indices ts (month_indices ts (some (y, m)))).length := by
    rw [hslen]
    omega
  have hbg0 := backLabel_get? y m (sorted_indices ts (month_indices ts (some (y, m)))) h0
  have hz0 : 0 < (sorted_indices ts (month_indices ts (some (y, m)))).length - 1 - 0 := by
    rw [hslen]
    omega
  rw [if_pos hz0] at hbg0
  have hmem0 := List.get?_mem hbg0
  rw [← hGA] at hmem0
  exact analyze_review_of_mem (mem_allAssignments hkmem hmem0) rfl

/-- Witness for C3 at the spec's scenario: the earlier January deposit is
labeled `For: Dec 2023`, the later one is `auto_ok`, and review is needed. -/
theorem analyze_uniform_group_witness :
    (2 ≤ (month_indices exC3 (some ((2024 : ℤ), 1))).length) ∧
    (∀ i ∈ month_indices exC3 (some ((2024 : ℤ), 1)),
      amountAt exC3 i = usual_amount exC3) ∧
    (analyze_transactions exC3).1 = true ∧
    (analyze_transactions exC3).2.map (fun e => (e.status, e.label)) =
      [(Status.auto_labeled, some "For: Dec 2023"), (Status.auto_ok, none)] :=
  ⟨by decide, by decide,
   (@analyze_uniform_group exC3 2024 1 (by decide) (by decide)).1,
   by decide⟩

/-! ### C4: mixed month groups -/

/-- C4: in a month group of N ≥ 2 whose amounts are not uniformly the usual
amount: every non-matching member is `needs_input` with the standard hint;
a single matching member is `auto_ok`; several matching members get the
backwards-labeling rule over the (chronologically sorted) matches. -/
theorem analyze_mixed_group {ts : List RawTransaction} {y : ℤ} {m : ℕ}
    (h2 : 2 ≤ (month_indices ts (some (y, m))).length)
    (hnall : ¬ ∀ i ∈ month_indices ts (some (y, m)),
      amountAt ts i = usual_amount ts) :
    ((sorted_indices ts (month_indices ts (some (y, m)))).filter
        (fun i => decide (amountAt ts i = usual_amount ts))).Sorted (dateLeAt ts) ∧
    (∀ i ∈ (sorted_indices ts (month_indices ts (some (y, m)))).filter
        (fun i => decide (amountAt ts i ≠ usual_amount ts)),
      ∀ t : RawTransaction, ts.get? i = some t →
        (analyze_transactions ts).2.get? i =
          some { raw := t, status := Status.needs_input, label := none
                 show_enrollment_option := enroll_hint t.credits_float }) ∧
    (((sorted_indices ts (month_indices ts (some (y, m)))).filter
        (fun i => decide (amountAt ts i = usual_amount ts))).length = 1 →
      ∀ i ∈ (sorted_indices ts (month_indices ts (some (y, m)))).filter
          (fun i => decide (amountAt ts i = usual_amount ts)),
        ∀ t : RawTransaction, ts.get? i = some t →
          (analyze_transactions ts).2.get? i =
            some { raw := t, status := Status.auto_ok, label := none
                   show_enrollment_option := false }) ∧
    (1 < ((sorted_indices ts (month_indices ts (some (y, m)))).filter
        (fun i => decide (amountAt ts i = usual_amount ts))).length →
      ∀ (p : ℕ) (hp : p < ((sorted_indices ts (month_indices ts (some (y, m)))).filter
          (fun i => decide (amountAt ts i = usual_amount ts))).length),
        (analyze_transactions ts).2.get?
            (((sorted_indices ts (month_indices ts (some (y, m)))).filter
              (fun i => decide (amountAt ts i = usual_amount ts))).get ⟨p, hp⟩) =
          (ts.get? (((sorted_indices ts (month_indices ts (some (y, m)))).filter
              (fun i => decide (amountAt ts i = usual_amount ts))).get ⟨p, hp⟩)).map
            (fun t =>
              if p = ((sorted_indices ts (month_indices ts (some (y, m)))).filter
                  (fun i => decide (amountAt ts i = usual_amount ts))).length - 1 then
                { raw := t, status := Status.auto_ok, label := none
                  show_enrollment_option := false }
              else
                { raw := t, status := Status.auto_labeled
                  label := some (forLabel y m
                    (((sorted_indices ts (month_indices ts (some (y, m)))).filter
                      (fun i => decide (amountAt ts i = usual_amount ts))).length - 1 - p))
                  show_enrollment_option := false })) := by
  have hIne : month_indices ts (some (y, m)) ≠ [] := by
    intro hE
    rw [hE] at h2
    simp at h2
  obtain ⟨i0, hi0⟩ := List.exists_mem_of_ne_nil _ hIne
  obtain ⟨t0, ht0, hk0⟩ := mem_month_indices.1 hi0
  have hkmem : some (y, m) ∈ month_keys ts := by
    rw [← hk0]
    exact month_key_mem_month_keys ht0
  have hGA := groupAssignments_mixed (u := usual_amount ts) (y := y) (m := m) h2 hnall
  refine ⟨?_, ?_, ?_, ?_⟩
  · exact List.Pairwise.filter _ (List.sorted_insertionSort _ _)
  · intro i hiN t ht
    have hassign : needsInputAssign ts i ∈
        groupAssignments ts (usual_amount ts) (some (y, m))
          (month_indices ts (some (y, m))) := by
      rw [hGA]
      exact List.mem_append_right _ (List.mem_map_of_mem _ hiN)
    have hA := analyze_get? (mem_allAssignments hkmem hassign)
    rw [show (needsInputAssign ts i).idx = i from rfl, ht, Option.map_some'] at hA
    have hamt : amountAt ts i = t.credits_float := by
      unfold amountAt
      rw [ht]
      rfl
    rw [← hamt]
    exact hA
  · intro hS1 i hiS t ht
    obtain ⟨b, hb⟩ := List.length_eq_one.1 hS1
    have hib : i = b := by
      rw [hb] at hiS
      simpa using hiS
    subst hib
    have hhead : ((sorted_indices ts (month_indices ts (some (y, m)))).filter
        (fun i => decide (amountAt ts i = usual_amount ts))).headD 0 = i := by
      rw [hb]
      rfl
    have hassign : (⟨i, .auto_ok, none, false⟩ : Assignment) ∈
        groupAssignments ts (usual_amount ts) (some (y, m))
          (month_indices ts (some (y, m))) := by
      rw [hGA]
      refine List.mem_append_left _ ?_
      rw [if_pos hS1, hhead]
      simp
    have hA := analyze_get? (mem_allAssignments hkmem hassign)
    rw [show (⟨i, .auto_ok, none, false⟩ : Assignment).idx = i from rfl, ht,
      Option.map_some'] at hA
    exact hA
  · intro hSgt p hp
    have hS1 : ¬ ((sorted_indices ts (month_indices ts (some (y, m)))).filter
        (fun i => decide (amountAt ts i = usual_amount ts))).length = 1 := by
      omega
    rw [if_neg hS1, if_pos hSgt] at hGA
    have hbg := backLabel_get? y m
      ((sorted_indices ts (month_indices ts (some (y, m)))).filter
        (fun i => decide (amountAt ts i = usual_amount ts))) hp
    have hmem := List.get?_mem hbg
    have hmem2 := List.mem_append_left
      (((sorted_indices ts (month_indices ts (some (y, m)))).filter
        (fun i => decide (amountAt ts i ≠ usual_amount ts))).map
        (needsInputAssign ts)) hmem
    rw [← hGA] at hmem2
    have hA := analyze_get? (mem_allAssignments hkmem hmem2)
    by_cases hlast : p = ((sorted_indices ts (month_indices ts (some (y, m)))).filter
        (fun i => decide (amountAt ts i = usual_amount ts))).length - 1
    · have hz : ¬ 0 < ((sorted_indices ts (month_indices ts (some (y, m)))).filter
          (fun i => decide (amountAt ts i = usual_amount ts))).length - 1 - p := by
        omega
      rw [if_neg hz] at hA
      simp only [if_pos hlast]
      exact hA
    · have hz : 0 < ((sorted_indices ts (month_indices ts (some (y, m)))).filter
          (fun i => decide (amountAt ts i = usual_amount ts))).length - 1 - p := by
        omega
      rw [if_pos hz] at hA
      simp only [if_neg hlast]
      exact hA

/-- Witness for C4 at the spec's scenario: the $500 deposit is `auto_ok`,
the $75 one is `needs_input` with the enrollment hint. -/
theorem analyze_mixed_group_witness :
    (2 ≤ (month_indices exC4 (some ((2024 : ℤ), 1))).length) ∧
    (¬ ∀ i ∈ month_indices exC4 (some ((2024 : ℤ), 1)),
      amountAt exC4 i = usual_amount exC4) ∧
    (analyze_transactions exC4).2.get? 1 =
      some { raw := exC4tx2, status := Status.needs_input, label := none
             show_enrollment_option := enroll_hint exC4tx2.credits_float } ∧
    (analyze_transactions exC4).2.map (fun e => (e.status, e.show_enrollment_option)) =
      [(Status.auto_ok, false), (Status.needs_input, true)] :=
  ⟨by decide, by decide,
   (@analyze_mixed_group exC4 2024 1 (by decide) (by decide)).2.1
     1 (by decide) exC4tx2 rfl,
   by decide⟩

/-! ### The overlay step and the visible-transaction filter -/

theorem applyOverlay_length (labels : List (ℤ × String))
    (an : List ClassifiedTransaction) :
    (applyOverlay labels an).length = an.length := by
  induction labels generalizing an with
  | nil => rfl
  | cons q rest ih =>
    show (applyOverlay rest
      (if 0 ≤ q.1 ∧ q.1 < (an.length : ℤ) then
        modifyIdx (fun e => { e with label := some q.2 }) q.1.toNat an
      else an)).length = an.length
    rw [ih]
    split
    · exact length_modifyIdx _ _ _
    · rfl

theorem applyOverlay_get?_of_not_mem :
    ∀ (labels : List (ℤ × String)) (an : List ClassifiedTransaction) (j : ℕ),
      (∀ q ∈ labels, ¬(0 ≤ q.1 ∧ q.1 < (an.length : ℤ) ∧ q.1.toNat = j)) →
      (applyOverlay labels an).get? j = an.get? j := by
  intro labels
  induction labels with
  | nil => intro an j _; rfl
  | cons q rest ih =>
    intro an j h
    show (applyOverlay rest
      (if 0 ≤ q.1 ∧ q.1 < (an.length : ℤ) then
        modifyIdx (fun e => { e with label := some q.2 }) q.1.toNat an
      else an)).get? j = an.get? j
    by_cases hg : 0 ≤ q.1 ∧ q.1 < (an.length : ℤ)
    · rw [if_pos hg]
      have hj : q.1.toNat ≠ j := fun hE => h q (by simp) ⟨hg.1, hg.2, hE⟩
      rw [ih _ j ?_, get?_modifyIdx_ne _ hj]
      intro r hr hcontra
      rw [length_modifyIdx] at hcontra
      exact h r (by simp [hr]) hcontra
    · rw [if_neg hg]
      exact ih _ j (fun r hr => h r (by simp [hr]))

theorem applyOverlay_get?_mem :
    ∀ (labels : List (ℤ × String)) (i : ℤ) (lab : String)
      (an : List ClassifiedTransaction),
      (labels.map Prod.fst).Nodup → (i, lab) ∈ labels → 0 ≤ i →
      i < (an.length : ℤ) →
      (applyOverlay labels an).get? i.toNat =
        (an.get? i.toNat).map (fun e => { e with label := some lab }) := by
  intro labels
  induction labels with
  | nil => intro i lab an _ hmem; cases hmem
  | cons q rest ih =>
    intro i lab an hnd hmem hge hlt
    rw [List.map_cons, List.nodup_cons] at hnd
    show (applyOverlay rest
      (if 0 ≤ q.1 ∧ q.1 < (an.length : ℤ) then
        modifyIdx (fun e => { e with label := some q.2 }) q.1.toNat an
      else an)).get? i.toNat = _
    rcases List.mem_cons.1 hmem with heq | hmem2
    · have hq1 : q.1 = i := by rw [← heq]
      have hq2 : q.2 = lab := by rw [← heq]
      rw [if_pos ⟨hq1 ▸ hge, hq1 ▸ hlt⟩]
      rw [applyOverlay_get?_of_not_mem _ _ _ ?_]
      · rw [hq1, hq2]
        exact get?_modifyIdx_self _ _ an
      · rintro r hr ⟨hr0, hrlt, hrj⟩
        apply hnd.1
        have hri : r.1 = i := by omega
        rw [hq1, ← hri]
        exact List.mem_map_of_mem Prod.fst hr
    · have hq1i : q.1 ≠ i :=
        fun hE => hnd.1 (by rw [hE]; exact List.mem_map_of_mem Prod.fst hmem2)
      by_cases hg : 0 ≤ q.1 ∧ q.1 < (an.length : ℤ)
      · rw [if_pos hg]
        have hlen : (modifyIdx (fun e => { e with label := some q.2 })
            q.1.toNat an).length = an.length := length_modifyIdx _ _ _
        rw [ih i lab _ hnd.2 hmem2 hge (by rw [hlen]; exact hlt)]
        have hne : q.1.toNat ≠ i.toNat := by omega
        rw [get?_modifyIdx_ne _ hne]
      · rw [if_neg hg]
        exact ih i lab an hnd.2 hmem2 hge hlt

/-- C9: overlaying the exclude sentinel onto the transaction at index `i`
removes exactly that transaction from the rendered visible table, leaving
every other entry as classification plus the rest of the overlay produced. -/
theorem exclude_overlay_removes_one (overlay : List (ℤ × String))
    (an : List ClassifiedTransaction) (i : ℤ) (hge : 0 ≤ i)
    (hlt : i < (an.length : ℤ)) :
    (∀ j : ℕ, j ≠ i.toNat →
      (applyOverlay (overlay ++ [(i, "ENROLLMENT_FEE")]) an).get? j =
        (applyOverlay overlay an).get? j) ∧
    visible_transactions (applyOverlay (overlay ++ [(i, "ENROLLMENT_FEE")]) an) =
      visible_transactions ((applyOverlay overlay an).eraseIdx i.toNat) := by
  have hfull : applyOverlay (overlay ++ [(i, "ENROLLMENT_FEE")]) an =
      applyOverlay [(i, "ENROLLMENT_FEE")] (applyOverlay overlay an) := by
    unfold applyOverlay
    rw [List.foldl_append]
  have hblen : (applyOverlay overlay an).length = an.length :=
    applyOverlay_length overlay an
  have hsingle : applyOverlay [(i, "ENROLLMENT_FEE")] (applyOverlay overlay an) =
      modifyIdx (fun e => { e with label := some "ENROLLMENT_FEE" }) i.toNat
        (applyOverlay overlay an) := by
    show (if 0 ≤ i ∧ i < ((applyOverlay overlay an).length : ℤ) then
        modifyIdx (fun e => { e with label := some "ENROLLMENT_FEE" }) i.toNat
          (applyOverlay overlay an)
      else applyOverlay overlay an) = _
    rw [if_pos ⟨hge, by rw [hblen]; exact hlt⟩]
  constructor
  · intro j hj
    rw [hfull, hsingle]
    exact get?_modifyIdx_ne _ (fun hE => hj hE.symm) _
  · rw [hfull, hsingle]
    unfold visible_transactions
    exact filter_modifyIdx _ _ (fun x => by simp) i.toNat _

/-- C10: the overlay accepts any in-range index — the supplied label
replaces that entry's label regardless of the entry's status, leaving its
status and review hint untouched — and silently ignores out-of-range
indices. -/
theorem overlay_semantics :
    (∀ (an : List ClassifiedTransaction) (i : ℤ) (lab : String)
        (rest : List (ℤ × String)),
      ¬(0 ≤ i ∧ i < (an.length : ℤ)) →
      applyOverlay ((i, lab) :: rest) an = applyOverlay rest an) ∧
    (∀ (labels : List (ℤ × String)) (i : ℤ) (lab : String)
        (an : List ClassifiedTransaction),
      (labels.map Prod.fst).Nodup → (i, lab) ∈ labels → 0 ≤ i →
      i < (an.length : ℤ) →
      (applyOverlay labels an).get? i.toNat =
        (an.get? i.toNat).map (fun e => { e with label := some lab })) := by
  constructor
  · intro an i lab rest hng
    show applyOverlay rest
      (if 0 ≤ i ∧ i < (an.length : ℤ) then
        modifyIdx (fun e => { e with label := some lab }) i.toNat an
      else an) = applyOverlay rest an
    rw [if_neg hng]
  · exact applyOverlay_get?_mem


/-- Witness for C9: excluding entry 0 of a two-entry list leaves exactly the
other entry visible, unchanged. -/
theorem exclude_overlay_removes_one_witness :
    ((0 : ℤ) ≤ 0 ∧ (0 : ℤ) < (exC9an.length : ℤ)) ∧
    ((∀ j : ℕ, j ≠ (0 : ℤ).toNat →
      (applyOverlay ([] ++ [((0 : ℤ), "ENROLLMENT_FEE")]) exC9an).get? j =
        (applyOverlay [] exC9an).get? j) ∧
    visible_transactions (applyOverlay ([] ++ [((0 : ℤ), "ENROLLMENT_FEE")]) exC9an) =
      visible_transactions ((applyOverlay [] exC9an).eraseIdx (0 : ℤ).toNat)) ∧
    visible_transactions (applyOverlay ([] ++ [((0 : ℤ), "ENROLLMENT_FEE")]) exC9an) =
      [{ raw := { Date := "02/05/2024", date_obj := some ⟨2024, 2, 5⟩
                  Description := "AUTO PMT", Credits := "$500.00", credits_float := 500 }
         status := .auto_ok, label := none, show_enrollment_option := false }] :=
  ⟨⟨by decide, by decide⟩,
   exclude_overlay_removes_one [] exC9an 0 (by decide) (by decide),
   by decide⟩

/-- Witness for C10: an in-range index relabels an `auto_labeled` entry
without touching its status or hint; index −1 is silently ignored. -/
theorem overlay_semantics_witness :
    (¬((0 : ℤ) ≤ -1 ∧ (-1 : ℤ) < (exC10an.length : ℤ))) ∧
    (applyOverlay (((-1 : ℤ), "Z") :: []) exC10an = applyOverlay [] exC10an) ∧
    (([((0 : ℤ), "X"), ((5 : ℤ), "Y")].map Prod.fst).Nodup ∧
      ((0 : ℤ), "X") ∈ [((0 : ℤ), "X"), ((5 : ℤ), "Y")] ∧
      (0 : ℤ) ≤ 0 ∧ (0 : ℤ) < (exC10an.length : ℤ)) ∧
    (applyOverlay [((0 : ℤ), "X"), ((5 : ℤ), "Y")] exC10an).get? (0 : ℤ).toNat =
      (exC10an.get? (0 : ℤ).toNat).map (fun e => { e with label := some "X" }) :=
  ⟨by decide,
   overlay_semantics.1 exC10an (-1) "Z" [] (by decide),
   ⟨by decide, by decide, by decide, by decide⟩,
   overlay_semantics.2 [((0 : ℤ), "X"), ((5 : ℤ), "Y")] 0 "X" exC10an
     (by decide) (by decide) (by decide) (by decide)⟩

/-- Witness for C7: a dateless transaction is `needs_input` even though its
amount equals the usual amount, and review is forced. -/
theorem analyze_unknown_date_needs_input_witness :
    ([exC7tx].get? 0 = some exC7tx) ∧ (exC7tx.date_obj = none) ∧
    ((analyze_transactions [exC7tx]).2.get? 0 =
      some { raw := exC7tx, status := Status.needs_input, label := none
             show_enrollment_option := enroll_hint exC7tx.credits_float } ∧
    (analyze_transactions [exC7tx]).1 = true) :=
  ⟨rfl, rfl,
   @analyze_unknown_date_needs_input [exC7tx] 0 exC7tx rfl rfl⟩

end VOD
